import Mathlib

/-!
Verification of the orchestration core of `legion-dev-oneclick-setup`:
the configuration variable resolver (`setup_modules/config_resolver.py`)
and the resumable progress tracker (`setup_modules/progress_tracker.py`).

Python values that can appear in a configuration tree or in the persisted
progress document (JSON-serializable values) are modelled by the mutual
inductive `JValue` / `JArr` / `JObj` below.  Python `dict`s are modelled as
insertion-ordered association lists with unique keys (`JObj`); numbers are
modelled as `Int` (the numeric fields the claims touch are timestamps and
counters whose exact numeric type is irrelevant to every claim).
-/

mutual

/-- A Python value as it appears in a configuration tree: `None`, `bool`,
number, `str`, `list`, or `dict` (`config_resolver.py` treats exactly these
shapes via `isinstance` checks). -/
inductive JValue : Type where
  | null : JValue
  | bool : Bool → JValue
  | num : Int → JValue
  | str : String → JValue
  | arr : JArr → JValue
  | obj : JObj → JValue

/-- A Python list of `JValue`s. -/
inductive JArr : Type where
  | nil : JArr
  | cons : JValue → JArr → JArr

/-- A Python dict from string keys to `JValue`s, in insertion order. -/
inductive JObj : Type where
  | nil : JObj
  | cons : String → JValue → JObj → JObj

end

/-- Python `key in d` followed by `d[key]`: first (unique) binding of `k`. -/
def objFind : JObj → String → Option JValue
  | .nil, _ => none
  | .cons k v rest, key => if k = key then some v else objFind rest key

/-- Keys of a dict, in insertion order (Python `d.keys()`). -/
def objKeys : JObj → List String
  | .nil => []
  | .cons k _ rest => k :: objKeys rest

/-- Python `s.startswith('~')` (config_resolver.py line 99). -/
def startsWithTilde (s : String) : Bool :=
  match s.data with
  | '~' :: _ => true
  | _ => false

/-- Models `str(Path(s).expanduser())` from `config_resolver.py` line 100 for
a string `s` that starts with `~`: a lone `~` or a `~/`-prefixed path is
rewritten to the caller's home directory followed by the remainder.
`~username` forms (which consult the OS user database) and `Path`'s slash
normalization are outside the scope of every claim and are modelled as the
identity. -/
def expanduserStr (home : String) (s : String) : String :=
  match s.data with
  | '~' :: rest =>
    match rest with
    | [] => home
    | '/' :: _ => String.mk (home.data ++ rest)
    | _ => s
  | _ => s

mutual

/-- `ConfigResolver._expand_tilde_paths` (config_resolver.py lines 84-103):
recursively rebuild the tree, expanding every string scalar that starts
with `~`. -/
def expand_tilde_paths (home : String) : JValue → JValue
  | .null => .null
  | .bool b => .bool b
  | .num n => .num n
  | .str s => if startsWithTilde s then .str (expanduserStr home s) else .str s
  | .arr xs => .arr (expandTildeArr home xs)
  | .obj fs => .obj (expandTildeObj home fs)

/-- List case of `_expand_tilde_paths`. -/
def expandTildeArr (home : String) : JArr → JArr
  | .nil => .nil
  | .cons v rest => .cons (expand_tilde_paths home v) (expandTildeArr home rest)

/-- Dict case of `_expand_tilde_paths`. -/
def expandTildeObj (home : String) : JObj → JObj
  | .nil => .nil
  | .cons k v rest => .cons k (expand_tilde_paths home v) (expandTildeObj home rest)

end

/-- `ConfigResolver._get_nested_value` (config_resolver.py lines 184-210):
walk a dot-separated path; if a segment is missing or the current value is
not a dict, the source raises `KeyError`, modelled as `none`. -/
def get_nested_value : JValue → List String → Option JValue
  | cur, [] => some cur
  | .obj fs, k :: rest =>
    match objFind fs k with
    | some v => get_nested_value v rest
    | none => none
  | _, _ :: _ => none

mutual

/-- Python `repr` of a JSON-like value, as produced inside `str(value)` for
lists and dicts (string escaping and quote selection inside nested `repr`s
are simplified to plain single quotes; no claim substitutes a string that
needs escaping). -/
def pyRepr : JValue → String
  | .null => "None"
  | .bool true => "True"
  | .bool false => "False"
  | .num n => toString n
  | .str s => "'" ++ s ++ "'"
  | .arr xs => "[" ++ pyReprArr xs ++ "]"
  | .obj fs => "\x7b" ++ pyReprObj fs ++ "\x7d"

/-- Comma-separated `repr` of list elements. -/
def pyReprArr : JArr → String
  | .nil => ""
  | .cons v .nil => pyRepr v
  | .cons v rest => pyRepr v ++ ", " ++ pyReprArr rest

/-- Comma-separated `repr` of dict entries. -/
def pyReprObj : JObj → String
  | .nil => ""
  | .cons k v .nil => "'" ++ k ++ "': " ++ pyRepr v
  | .cons k v rest => "'" ++ k ++ "': " ++ pyRepr v ++ ", " ++ pyReprObj rest

end

/-- Python `str(value)`: a string is returned as-is, everything else through
`repr`-style rendering (for ints and booleans `str` and `repr` agree). -/
def pyStr : JValue → String
  | .str s => s
  | v => pyRepr v

/-- Scan to the first `}`: returns the characters before it and the
characters after it.  Models the `[^}]+\}` part of the regex
`\$\{([^}]+)\}` in `_resolve_string_variables` (line 171); `none` when no
closing brace exists. -/
def takeToBrace : List Char → Option (List Char × List Char)
  | [] => none
  | c :: cs =>
    if c = '}' then some ([], cs)
    else
      match takeToBrace cs with
      | some (content, rest) => some (c :: content, rest)
      | none => none

/-- Python `path.split('.')` (config_resolver.py line 201): split at every
dot, keeping empty segments. -/
def splitDots : List Char → List (List Char)
  | [] => [[]]
  | c :: cs =>
    match splitDots cs with
    | [] => []
    | seg :: rest => if c = '.' then [] :: seg :: rest else (c :: seg) :: rest

/-- The `replace_var` closure (config_resolver.py lines 173-180): look up
the dot-path in `cfg` (the resolver's *original* `self.config`); on
`KeyError` (missing segment / non-dict) or a `None` value the match is left
verbatim, otherwise it is replaced by `str(value)`. -/
def replace_var (cfg : JValue) (content : List Char) : List Char :=
  match get_nested_value cfg ((splitDots content).map String.mk) with
  | some .null => '$' :: '{' :: (content ++ ['}'])
  | some v => (pyStr v).data
  | none => '$' :: '{' :: (content ++ ['}'])

/-- One `re.sub(r'\$\{([^}]+)\}', replace_var, text)` scan (line 182),
written with an explicit fuel argument so that it is structurally recursive
(the scan resumes after the replaced match, which is not a structural
subterm).  `substGo` is only meaningful when `fuel ≥ cs.length`; the
`0, cs => cs` line is never reached from `resolve_string_variables`.
The scan moves left to right; at `$` immediately followed by `{` it looks
for a closing `}` with a nonempty capture, replaces the match and resumes
after it; otherwise it advances one character, exactly like the regex
engine. -/
def substGo (cfg : JValue) : Nat → List Char → List Char
  | _, [] => []
  | 0, cs => cs
  | _ + 1, [c] => [c]
  | fuel + 1, c1 :: c2 :: cs =>
    if c1 = '$' ∧ c2 = '{' then
      match takeToBrace cs with
      | some (p :: ps, rem) => replace_var cfg (p :: ps) ++ substGo cfg fuel rem
      | some ([], _) => c1 :: substGo cfg fuel (c2 :: cs)
      | none => c1 :: substGo cfg fuel (c2 :: cs)
    else c1 :: substGo cfg fuel (c2 :: cs)

/-- `ConfigResolver._resolve_string_variables` (lines 157-182). -/
def resolve_string_variables (cfg : JValue) (text : String) : String :=
  String.mk (substGo cfg text.data.length text.data)

mutual

/-- `ConfigResolver._resolve_variables_single_pass` (lines 135-155):
rebuild the tree, resolving references in every string scalar.  Lookups are
performed against `cfg`, the resolver's original `self.config` (line 176
passes `self.config`, not the tree being rewritten). -/
def resolve_variables_single_pass (cfg : JValue) : JValue → JValue
  | .null => .null
  | .bool b => .bool b
  | .num n => .num n
  | .str s => .str (resolve_string_variables cfg s)
  | .arr xs => .arr (singlePassArr cfg xs)
  | .obj fs => .obj (singlePassObj cfg fs)

/-- List case of `_resolve_variables_single_pass`. -/
def singlePassArr (cfg : JValue) : JArr → JArr
  | .nil => .nil
  | .cons v rest => .cons (resolve_variables_single_pass cfg v) (singlePassArr cfg rest)

/-- Dict case of `_resolve_variables_single_pass`. -/
def singlePassObj (cfg : JValue) : JObj → JObj
  | .nil => .nil
  | .cons k v rest => .cons k (resolve_variables_single_pass cfg v) (singlePassObj cfg rest)

end

/-- Python `'${' in s`. -/
def hasDollarBrace : List Char → Bool
  | [] => false
  | [_] => false
  | c1 :: c2 :: cs => (c1 = '$' && c2 = '{') || hasDollarBrace (c2 :: cs)

mutual

/-- `ConfigResolver._has_unresolved_variables` (lines 212-232): does any
string scalar still contain the token `${`. -/
def has_unresolved_variables : JValue → Bool
  | .null => false
  | .bool _ => false
  | .num _ => false
  | .str s => hasDollarBrace s.data
  | .arr xs => hasUnresolvedArr xs
  | .obj fs => hasUnresolvedObj fs

/-- List case of `_has_unresolved_variables`. -/
def hasUnresolvedArr : JArr → Bool
  | .nil => false
  | .cons v rest => has_unresolved_variables v || hasUnresolvedArr rest

/-- Dict case of `_has_unresolved_variables`. -/
def hasUnresolvedObj : JObj → Bool
  | .nil => false
  | .cons _ v rest => has_unresolved_variables v || hasUnresolvedObj rest

end

/-- The `for iteration in range(max_iterations)` loop of
`ConfigResolver._resolve_variable_references` (lines 122-133).  Each round
runs one pass; if unresolved tokens remain the loop continues with the new
tree, otherwise the tree is returned with no warning (`false`).  When the
fuel runs out the source falls out of the loop, prints the
circular-reference warning and returns the last `resolved_obj` (`true`). -/
def resolve_refs_loop (cfg : JValue) : Nat → JValue → JValue × Bool
  | 0, obj => (obj, true)
  | fuel + 1, obj =>
    let resolved := resolve_variables_single_pass cfg obj
    if has_unresolved_variables resolved then resolve_refs_loop cfg fuel resolved
    else (resolved, false)

/-- `ConfigResolver._resolve_variable_references` (lines 105-133) with its
default `max_iterations = 10`.  The `Bool` component records whether the
circular-or-deep-reference warning was printed. -/
def resolve_variable_references (cfg : JValue) (obj : JValue) : JValue × Bool :=
  resolve_refs_loop cfg 10 obj

/-- `ConfigResolver.resolve_variables` (lines 59-82) called with its default
argument: tilde expansion over a copy of `self.config`, then iterated
reference substitution; reference lookups consult the original `cfg`. -/
def resolve_variables (home : String) (cfg : JValue) : JValue × Bool :=
  resolve_variable_references cfg (expand_tilde_paths home cfg)

/-! ## Progress tracker (`setup_modules/progress_tracker.py`) -/

/-- The `StageStatus` dataclass (progress_tracker.py lines 17-30), with
`__post_init__` already applied so `details` is always a dict.  Timestamps
(`time.time()`) are modelled as `Int`. -/
structure StageStatus where
  name : String
  status : String
  stage_id : String
  checksum : Option String
  start_time : Option Int
  end_time : Option Int
  error_message : Option String
  details : JObj

/-- One entry of the hardcoded `stage_definitions` table (lines 40-116). -/
structure StageDef where
  name : String
  id : String
  description : String
  dependencies : List String

/-- The hardcoded `stage_definitions` table (lines 40-116), in declaration
order. -/
def stage_definitions : List StageDef :=
  [ ⟨"validation", "VAL-001", "Environment validation and prerequisite checks", []⟩,
    ⟨"prerequisites", "PRE-002", "System prerequisites verification", ["validation"]⟩,
    ⟨"homebrew_install", "HBR-003", "Homebrew package manager installation", ["prerequisites"]⟩,
    ⟨"java_install", "JDK-004", "Java JDK 17 installation and setup", ["homebrew_install"]⟩,
    ⟨"maven_install", "MVN-005", "Apache Maven build tool installation", ["java_install"]⟩,
    ⟨"node_install", "NOD-006", "Node.js and npm installation", ["homebrew_install"]⟩,
    ⟨"mysql_install", "SQL-007", "MySQL database server installation", ["homebrew_install"]⟩,
    ⟨"docker_setup", "DOC-008", "Docker Desktop installation and configuration", ["prerequisites"]⟩,
    ⟨"git_github_setup", "GIT-009", "Git configuration and GitHub SSH setup", ["prerequisites"]⟩,
    ⟨"jfrog_maven_setup", "JFR-010", "JFrog Artifactory Maven settings configuration", ["maven_install"]⟩,
    ⟨"database_setup", "DBS-011", "MySQL database creation and data import", ["mysql_install"]⟩,
    ⟨"repository_clone", "REP-012", "Clone Legion repositories (enterprise + console-ui)", ["git_github_setup"]⟩,
    ⟨"intellij_setup", "IDE-013", "IntelliJ IDEA configuration and project setup", ["repository_clone", "maven_install"]⟩,
    ⟨"build_verification", "BLD-014", "Maven build and compilation verification", ["jfrog_maven_setup", "database_setup"]⟩,
    ⟨"final_validation", "FIN-015", "Final environment validation and health checks", ["build_verification", "intellij_setup"]⟩ ]

/-- `self.stages = list(self.stage_definitions.keys())` (line 118): the
declared stage order. -/
def stages : List String := stage_definitions.map StageDef.name

/-- The in-memory `self.progress_data` dict: stage name to `StageStatus`,
in insertion order. -/
abbrev ProgressData := List (String × StageStatus)

/-- Python `name in self.progress_data` / `self.progress_data[name]`. -/
def alookup : ProgressData → String → Option StageStatus
  | [], _ => none
  | (k, v) :: rest, key => if k = key then some v else alookup rest key

/-- In-place mutation of the dict entry at `key` (Python mutates the
`StageStatus` object held under that key; keys are unique, so rewriting
each matching entry in place is the same operation). -/
def aupdate : ProgressData → String → (StageStatus → StageStatus) → ProgressData
  | [], _, _ => []
  | (k0, v0) :: rest, key, f =>
    (if k0 = key then (k0, f v0) else (k0, v0)) :: aupdate rest key f

/-- Python exceptions that the modelled fragments can raise. -/
inductive PyExc where
  | attributeError : PyExc
  | keyError : PyExc
deriving DecidableEq

/-- `ProgressTracker._initialize_progress` (lines 140-151): every defined
stage `pending`, carrying the current configuration checksum.  The MD5
checksum of `_calculate_config_checksum` (lines 153-163) is abstracted as
the string parameter `cks` — no claim depends on the hash itself. -/
def initialize_progress (cks : String) : ProgressData :=
  stage_definitions.map fun d =>
    (d.name,
      { name := d.name, status := "pending", stage_id := d.id, checksum := some cks,
        start_time := none, end_time := none, error_message := none, details := .nil })

/-- The state of the backing `setup_progress.json` file as `_load_progress`
sees it: absent, present but not parseable as JSON (`json.load` raises
`json.JSONDecodeError`), present and parsed to a non-dict top-level value
(`data.get` raises `AttributeError`), or parsed to a top-level dict. -/
inductive ProgressFile where
  | missing : ProgressFile
  | invalidJson : ProgressFile
  | nonMapping : ProgressFile
  | mapping : JObj → ProgressFile

/-- `StageStatus(**stage_data)` (line 133) followed by `__post_init__`:
the keyword dict may omit fields with defaults, must contain `name`,
`status` and `stage_id`, and must contain no unknown key (otherwise Python
raises `TypeError`).  Dataclasses do not check annotation types at runtime;
records whose present fields have shapes other than the ones the tracker
itself writes are outside every claim and are modelled as failures too. -/
def stage_status_of_kwargs (kw : JObj) : Option StageStatus :=
  let allowed : List String :=
    ["name", "status", "stage_id", "checksum", "start_time", "end_time", "error_message", "details"]
  let optStrF : String → Option (Option String) := fun k =>
    match objFind kw k with
    | none => some none
    | some .null => some none
    | some (.str s) => some (some s)
    | some _ => none
  let optNumF : String → Option (Option Int) := fun k =>
    match objFind kw k with
    | none => some none
    | some .null => some none
    | some (.num n) => some (some n)
    | some _ => none
  if (objKeys kw).all (fun k => allowed.contains k) then
    match objFind kw "name", objFind kw "status", objFind kw "stage_id" with
    | some (.str n), some (.str st), some (.str sid) =>
      (optStrF "checksum").bind fun cks =>
      (optNumF "start_time").bind fun t0 =>
      (optNumF "end_time").bind fun t1 =>
      (optStrF "error_message").bind fun em =>
      (match objFind kw "details" with
       | none => some JObj.nil
       | some .null => some JObj.nil
       | some (.obj fs) => some fs
       | some _ => none).map fun dts =>
        { name := n, status := st, stage_id := sid, checksum := cks,
          start_time := t0, end_time := t1, error_message := em, details := dts }
    | _, _, _ => none
  else none

/-- The `for stage_name, stage_data in data.get('stages', {}).items()` loop
(lines 131-133): reconstruct one `StageStatus` per persisted entry; `none`
when some entry makes `StageStatus(**stage_data)` raise. -/
def load_stage_entries : JObj → Option ProgressData
  | .nil => some []
  | .cons n v rest =>
    match v with
    | .obj kw =>
      match stage_status_of_kwargs kw with
      | some st => (load_stage_entries rest).map (fun l => (n, st) :: l)
      | none => none
    | _ => none

/-- `ProgressTracker._load_progress` (lines 121-138).  A missing file
initializes fresh.  Any exception raised inside the `try` block reaches the
clause `except (json.JSONError, KeyError, TypeError)` (line 136); the
`json` module has no attribute `JSONError` (the stdlib name is
`JSONDecodeError`), so evaluating that exception tuple itself raises
`AttributeError`, which replaces the original exception and propagates out
of `_load_progress`.  Consequently every malformed-file path raises instead
of recovering. -/
def load_progress (cks : String) : ProgressFile → Except PyExc ProgressData
  | .missing => .ok (initialize_progress cks)
  | .invalidJson => .error .attributeError
  | .nonMapping => .error .attributeError
  | .mapping entries =>
    match objFind entries "stages" with
    | none => .ok []
    | some (.obj stagesObj) =>
      match load_stage_entries stagesObj with
      | some l => .ok l
      | none => .error .attributeError
    | some _ => .error .attributeError

/-- `Optional[str]` / `Optional[float]` fields as JSON values. -/
def optStrJson : Option String → JValue
  | none => .null
  | some s => .str s

/-- Numeric optional field as a JSON value. -/
def optNumJson : Option Int → JValue
  | none => .null
  | some n => .num n

/-- `asdict(stage_status)` (line 170): the eight dataclass fields in
declaration order. -/
def stage_status_to_json (s : StageStatus) : JObj :=
  .cons "name" (.str s.name)
    (.cons "status" (.str s.status)
      (.cons "stage_id" (.str s.stage_id)
        (.cons "checksum" (optStrJson s.checksum)
          (.cons "start_time" (optNumJson s.start_time)
            (.cons "end_time" (optNumJson s.end_time)
              (.cons "error_message" (optStrJson s.error_message)
                (.cons "details" (.obj s.details) .nil)))))))

/-- The `stages_data` dict comprehension (lines 169-172). -/
def stages_to_json : ProgressData → JObj
  | [] => .nil
  | (n, st) :: rest => .cons n (.obj (stage_status_to_json st)) (stages_to_json rest)

/-- `len([s for s in self.progress_data.values() if s.status == "completed"])`
(line 180). -/
def completed_count (pd : ProgressData) : Nat :=
  (pd.filter (fun e => e.2.status = "completed")).length

/-- The embedded `stage_definitions` table as JSON (line 181). -/
def stage_definitions_json : JValue :=
  .obj (stage_definitions.foldr
    (fun d acc =>
      .cons d.name
        (.obj (.cons "id" (.str d.id)
          (.cons "description" (.str d.description)
            (.cons "dependencies"
              (.arr (d.dependencies.foldr (fun s a => .cons (.str s) a) .nil)) .nil))))
        acc)
    .nil)

/-- `ProgressTracker._save_progress` (lines 165-188): the metadata document
written to `setup_progress.json`.  `time.time()` and the session id are the
parameters `now` and `sess`; `_calculate_config_checksum()` is the
parameter `cks` as in `initialize_progress`. -/
def save_progress (cks : String) (now : Int) (sess : String) (pd : ProgressData) : ProgressFile :=
  .mapping
    (.cons "last_updated" (.num now)
      (.cons "setup_version" (.str "1.0.0")
        (.cons "session_id" (.str sess)
          (.cons "config_checksum" (.str cks)
            (.cons "total_stages" (.num (Int.ofNat stages.length))
              (.cons "completed_stages" (.num (Int.ofNat (completed_count pd)))
                (.cons "stage_definitions" stage_definitions_json
                  (.cons "stages" (.obj (stages_to_json pd)) .nil))))))))

/-- Python `old.update(new)` on dicts: existing keys are overwritten in
place, new keys are appended in iteration order. -/
def objMem : JObj → String → Bool
  | .nil, _ => false
  | .cons k _ rest, key => k = key || objMem rest key

/-- Replace the value stored under `key`, keeping its position. -/
def objReplace : JObj → String → JValue → JObj
  | .nil, _, _ => .nil
  | .cons k0 v0 rest, key, v =>
    if k0 = key then .cons k0 v rest else .cons k0 v0 (objReplace rest key v)

/-- Append a binding at the end. -/
def objAppend : JObj → String → JValue → JObj
  | .nil, key, v => .cons key v .nil
  | .cons k0 v0 rest, key, v => .cons k0 v0 (objAppend rest key v)

/-- Python `d[k] = v`. -/
def objInsert (d : JObj) (key : String) (v : JValue) : JObj :=
  if objMem d key then objReplace d key v else objAppend d key v

/-- Python `old.update(new)`. -/
def dict_update : JObj → JObj → JObj
  | old, .nil => old
  | old, .cons k v rest => dict_update (objInsert old k v) rest

/-- The `if details: stage.details.update(details)` step shared by
`complete_stage` and `fail_stage` (lines 210-211, 226-227): `None` and the
empty dict are falsy, so only a nonempty dict is merged. -/
def apply_details (st : StageStatus) : Option JObj → StageStatus
  | none => st
  | some .nil => st
  | some d => { st with details := dict_update st.details d }

/-- `ProgressTracker.fail_stage` (lines 216-230): unknown names warn and
return `False` without mutating; otherwise status becomes `failed`,
`end_time` is stamped, the error message stored, optional details merged,
and the method returns `True`.  (The `_save_progress()` call on line 229
persists the same in-memory state and is modelled by `save_progress`.) -/
def fail_stage (now : Int) (pd : ProgressData) (stage_name : String)
    (error_message : String) (details : Option JObj) : ProgressData × Bool :=
  match alookup pd stage_name with
  | none => (pd, false)
  | some _ =>
    (aupdate pd stage_name (fun st =>
      apply_details
        { st with status := "failed", end_time := some now, error_message := some error_message }
        details),
     true)

/-- The scan inside `ProgressTracker.get_resume_point` (lines 249-256):
first stage in declared order whose status is not `completed`; Python
raises `KeyError` when a declared stage has no entry in the dict. -/
def resume_scan (pd : ProgressData) : List String → Except PyExc (Option String)
  | [] => .ok none
  | n :: rest =>
    match alookup pd n with
    | none => .error .keyError
    | some st => if st.status ≠ "completed" then .ok (some n) else resume_scan pd rest

/-- `ProgressTracker.get_resume_point`. -/
def get_resume_point (pd : ProgressData) : Except PyExc (Option String) :=
  resume_scan pd stages

/-- The per-stage reset of `reset_from_stage` (lines 266-271). -/
def clear_stage (st : StageStatus) : StageStatus :=
  { st with status := "pending", start_time := none, end_time := none,
            error_message := none, details := .nil }

/-- The `for current_stage in self.stages` loop of
`ProgressTracker.reset_from_stage` (lines 258-271) with its `found_stage`
flag; `self.progress_data[current_stage]` raises `KeyError` when a stage to
be reset has no dict entry. -/
def reset_scan (stage_name : String) : ProgressData → Bool → List String → Except PyExc ProgressData
  | pd, _, [] => .ok pd
  | pd, found, s :: rest =>
    let found' := found || (s == stage_name)
    if found' then
      match alookup pd s with
      | none => .error .keyError
      | some _ => reset_scan stage_name (aupdate pd s clear_stage) found' rest
    else reset_scan stage_name pd found' rest

/-- `ProgressTracker.reset_from_stage` without the final save. -/
def reset_from_stage (pd : ProgressData) (stage_name : String) : Except PyExc ProgressData :=
  reset_scan stage_name pd false stages

/-- `ProgressTracker.reset_from_stage` including the single
`_save_progress()` call at the end (line 273): the file written is the
serialization of the post-reset state. -/
def reset_from_stage_saved (cks : String) (now : Int) (sess : String)
    (pd : ProgressData) (stage_name : String) : Except PyExc (ProgressData × ProgressFile) :=
  (reset_from_stage pd stage_name).map fun pd2 => (pd2, save_progress cks now sess pd2)

/-! ## Auxiliary predicates on configuration trees -/

mutual

/-- Does some string scalar of the tree start with `~` (the strings that
pass 1 of `resolve_variables` rewrites). -/
def hasTildeVal : JValue → Bool
  | .null => false
  | .bool _ => false
  | .num _ => false
  | .str s => startsWithTilde s
  | .arr xs => hasTildeArr xs
  | .obj fs => hasTildeObj fs

/-- List case of `hasTildeVal`. -/
def hasTildeArr : JArr → Bool
  | .nil => false
  | .cons v rest => hasTildeVal v || hasTildeArr rest

/-- Dict case of `hasTildeVal`. -/
def hasTildeObj : JObj → Bool
  | .nil => false
  | .cons _ v rest => hasTildeVal v || hasTildeObj rest

end

mutual

/-- The shape skeleton of a tree: every string scalar is collapsed to
`.str ""`, everything else (keys, order, lengths, non-string scalars) is
kept.  Two trees have the same mapping keys at every mapping node, the same
sequence lengths and positions, and equal non-string scalar leaves exactly
when their skeletons are equal. -/
def shape_of : JValue → JValue
  | .null => .null
  | .bool b => .bool b
  | .num n => .num n
  | .str _ => .str ""
  | .arr xs => .arr (shapeOfArr xs)
  | .obj fs => .obj (shapeOfObj fs)

/-- List case of `shape_of`. -/
def shapeOfArr : JArr → JArr
  | .nil => .nil
  | .cons v rest => .cons (shape_of v) (shapeOfArr rest)

/-- Dict case of `shape_of`. -/
def shapeOfObj : JObj → JObj
  | .nil => .nil
  | .cons k v rest => .cons k (shape_of v) (shapeOfObj rest)

end

/-! ## Concrete inputs used by counterexamples and witnesses -/

/-- The configuration `\x7b"a": "~/x", "b": "$\x7ba\x7d/y"\x7d`: `a` is a
tilde path and `b` references it. -/
def c2_config : JValue :=
  .obj (.cons "a" (.str "~/x") (.cons "b" (.str "$\x7ba\x7d/y") .nil))

/-- The circular configuration `\x7b"a": "$\x7bb\x7d", "b": "$\x7ba\x7d"\x7d`. -/
def circ_config : JValue :=
  .obj (.cons "a" (.str "$\x7bb\x7d") (.cons "b" (.str "$\x7ba\x7d") .nil))

/-- The configuration `\x7b"a": "v"\x7d` used to exercise mixed
resolvable/unresolvable references in one string. -/
def c6_config : JValue := .obj (.cons "a" (.str "v") .nil)

/-- A persisted progress file whose `stages` mapping holds a single,
well-formed entry `bogus` that is not a defined stage name. -/
def c3_file : ProgressFile :=
  .mapping (.cons "stages"
    (.obj (.cons "bogus"
      (.obj (.cons "name" (.str "bogus")
        (.cons "status" (.str "pending")
          (.cons "stage_id" (.str "XXX-999") .nil)))) .nil)) .nil)

/-- A tree containing no tilde paths and no variable references. -/
def c9_config : JValue :=
  .obj (.cons "a" (.str "hello")
    (.cons "b" (.arr (.cons (.num 3) (.cons (.str "w") .nil)))
      (.cons "c" (.obj (.cons "d" (.bool true) .nil)) .nil)))

/-- The resume-point computation as the spec words it: scan the stages in
declared order and return the first whose status is not `completed`
(`none` when all are `completed`).  Written with `List.find?` to compare
against the embedded `get_resume_point`. -/
def resume_point_spec (pd : ProgressData) : Option String :=
  stages.find? fun n => !((alookup pd n).map StageStatus.status == some "completed")

/-- Boolean membership in a list of stage names. -/
def memb : List String → String → Bool
  | [], _ => false
  | a :: rest, s => (a = s) || memb rest s

/-- The effect `reset_from_stage` is claimed to have: clear every entry
whose stage name lies in `region`, leave every other entry untouched. -/
def apply_reset : ProgressData → List String → ProgressData
  | [], _ => []
  | (k0, v0) :: rest, region =>
    (if memb region k0 then (k0, clear_stage v0) else (k0, v0)) :: apply_reset rest region

/-! ## Lemmas about the string-level substitution scan -/


theorem takeToBrace_length :
    ∀ (cs content rest : List Char), takeToBrace cs = some (content, rest) →
      rest.length < cs.length := by
  intro cs
  induction cs with
  | nil => intro content rest h; simp [takeToBrace] at h
  | cons c cs ih =>
    intro content rest h
    by_cases hc : c = '}'
    · simp only [takeToBrace, if_pos hc, Option.some.injEq, Prod.mk.injEq] at h
      rw [← h.2]
      simp
    · simp only [takeToBrace, if_neg hc] at h
      cases hh : takeToBrace cs with
      | none => rw [hh] at h; simp at h
      | some p =>
        rw [hh] at h
        simp only [Option.some.injEq, Prod.mk.injEq] at h
        have hlt := ih p.1 p.2 (by rw [hh])
        rw [← h.2]
        simp only [List.length_cons]
        omega

theorem takeToBrace_append :
    ∀ (p post : List Char), '}' ∉ p →
      takeToBrace (p ++ '}' :: post) = some (p, post) := by
  intro p post
  induction p with
  | nil => intro _; simp [takeToBrace]
  | cons c cs ih =>
    intro h
    have hc : ¬ c = '}' := fun hh => h (hh ▸ List.mem_cons_self c cs)
    have hrest : '}' ∉ cs := fun hm => h (List.mem_cons_of_mem c hm)
    simp only [List.cons_append, takeToBrace, if_neg hc, List.append_eq, ih hrest]

theorem substGo_fuel (cfg : JValue) :
    ∀ (f1 : Nat) (cs : List Char) (f2 : Nat), cs.length ≤ f1 → cs.length ≤ f2 →
      substGo cfg f1 cs = substGo cfg f2 cs := by
  intro f1
  induction f1 with
  | zero =>
    intro cs f2 h1 _
    have hcs : cs = [] := List.eq_nil_of_length_eq_zero (Nat.le_zero.mp h1)
    subst hcs
    cases f2 <;> rfl
  | succ a ih =>
    intro cs f2 h1 h2
    rcases cs with _ | ⟨c1, _ | ⟨c2, cs'⟩⟩
    · cases f2 <;> rfl
    · cases f2 with
      | zero => simp at h2
      | succ b => rfl
    · cases f2 with
      | zero => simp at h2
      | succ b =>
        simp only [List.length_cons] at h1 h2
        have hca : cs'.length + 1 ≤ a := by omega
        have hcb : cs'.length + 1 ≤ b := by omega
        by_cases hb : c1 = '$' ∧ c2 = '{'
        · simp only [substGo, if_pos hb]
          cases ht : takeToBrace cs' with
          | none =>
            show c1 :: substGo cfg a (c2 :: cs') = c1 :: substGo cfg b (c2 :: cs')
            rw [ih (c2 :: cs') b (by simpa using hca) (by simpa using hcb)]
          | some p =>
            obtain ⟨content, rem⟩ := p
            have hrem := takeToBrace_length cs' content rem ht
            cases content with
            | nil =>
              show c1 :: substGo cfg a (c2 :: cs') = c1 :: substGo cfg b (c2 :: cs')
              rw [ih (c2 :: cs') b (by simpa using hca) (by simpa using hcb)]
            | cons p ps =>
              show replace_var cfg (p :: ps) ++ substGo cfg a rem =
                replace_var cfg (p :: ps) ++ substGo cfg b rem
              rw [ih rem b (by omega) (by omega)]
        · simp only [substGo, if_neg hb]
          rw [ih (c2 :: cs') b (by simpa using hca) (by simpa using hcb)]

theorem substGo_no_token (cfg : JValue) :
    ∀ (fuel : Nat) (cs : List Char), cs.length ≤ fuel → hasDollarBrace cs = false →
      substGo cfg fuel cs = cs := by
  intro fuel
  induction fuel with
  | zero =>
    intro cs h1 _
    have hcs : cs = [] := List.eq_nil_of_length_eq_zero (Nat.le_zero.mp h1)
    subst hcs
    rfl
  | succ a ih =>
    intro cs h1 htok
    rcases cs with _ | ⟨c1, _ | ⟨c2, cs'⟩⟩
    · rfl
    · rfl
    · have hb : ¬(c1 = '$' ∧ c2 = '{') := by
        rintro ⟨e1, e2⟩
        subst e1; subst e2
        simp [hasDollarBrace] at htok
      have htok' : hasDollarBrace (c2 :: cs') = false := by
        simp only [hasDollarBrace, Bool.or_eq_false_iff] at htok
        exact htok.2
      simp only [substGo, if_neg hb]
      rw [ih (c2 :: cs') (by simp at h1 ⊢; omega) htok']

theorem substGo_append (cfg : JValue) (suf : List Char) (hs : suf.head? ≠ some '{') :
    ∀ pre : List Char, hasDollarBrace pre = false →
      substGo cfg (pre ++ suf).length (pre ++ suf) = pre ++ substGo cfg suf.length suf := by
  intro pre
  induction pre with
  | nil => intro _; simp
  | cons c1 rest ih =>
    intro htok
    rcases rest with _ | ⟨c2, rest'⟩
    · rcases hsuf : suf with _ | ⟨s2, suf'⟩
      · rfl
      · have h2 : ¬ s2 = '{' := fun e => hs (by rw [hsuf, e]; rfl)
        have hb : ¬(c1 = '$' ∧ s2 = '{') := fun hand => h2 hand.2
        subst hsuf
        simp only [List.cons_append, List.nil_append, List.length_cons]
        simp only [substGo, if_neg hb]
    · have hb : ¬(c1 = '$' ∧ c2 = '{') := by
        rintro ⟨e1, e2⟩
        subst e1; subst e2
        simp [hasDollarBrace] at htok
      have htok' : hasDollarBrace (c2 :: rest') = false := by
        simp only [hasDollarBrace, Bool.or_eq_false_iff] at htok
        exact htok.2
      have hrec := ih htok'
      simp only [List.cons_append, List.length_cons] at hrec ⊢
      simp only [substGo, if_neg hb]
      rw [hrec]

theorem string_mk_data (s : String) : String.mk s.data = s := by
  cases s
  rfl

mutual

theorem expand_tilde_id (home : String) :
    ∀ v : JValue, hasTildeVal v = false → expand_tilde_paths home v = v
  | .null, _ => rfl
  | .bool _, _ => rfl
  | .num _, _ => rfl
  | .str s, h => by
    have hs : startsWithTilde s = false := h
    simp [expand_tilde_paths, hs]
  | .arr xs, h => by
    have hx : hasTildeArr xs = false := h
    simp [expand_tilde_paths, expand_tilde_arr_id home xs hx]
  | .obj fs, h => by
    have hf : hasTildeObj fs = false := h
    simp [expand_tilde_paths, expand_tilde_obj_id home fs hf]

theorem expand_tilde_arr_id (home : String) :
    ∀ xs : JArr, hasTildeArr xs = false → expandTildeArr home xs = xs
  | .nil, _ => rfl
  | .cons v rest, h => by
    simp only [hasTildeArr, Bool.or_eq_false_iff] at h
    simp [expandTildeArr, expand_tilde_id home v h.1, expand_tilde_arr_id home rest h.2]

theorem expand_tilde_obj_id (home : String) :
    ∀ fs : JObj, hasTildeObj fs = false → expandTildeObj home fs = fs
  | .nil, _ => rfl
  | .cons k v rest, h => by
    simp only [hasTildeObj, Bool.or_eq_false_iff] at h
    simp [expandTildeObj, expand_tilde_id home v h.1, expand_tilde_obj_id home rest h.2]

end

mutual

theorem single_pass_id (cfg : JValue) :
    ∀ v : JValue, has_unresolved_variables v = false →
      resolve_variables_single_pass cfg v = v
  | .null, _ => rfl
  | .bool _, _ => rfl
  | .num _, _ => rfl
  | .str s, h => by
    have hs : hasDollarBrace s.data = false := h
    simp only [resolve_variables_single_pass, resolve_string_variables,
      substGo_no_token cfg s.data.length s.data le_rfl hs, string_mk_data]
  | .arr xs, h => by
    have hx : hasUnresolvedArr xs = false := h
    simp [resolve_variables_single_pass, single_pass_arr_id cfg xs hx]
  | .obj fs, h => by
    have hf : hasUnresolvedObj fs = false := h
    simp [resolve_variables_single_pass, single_pass_obj_id cfg fs hf]

theorem single_pass_arr_id (cfg : JValue) :
    ∀ xs : JArr, hasUnresolvedArr xs = false → singlePassArr cfg xs = xs
  | .nil, _ => rfl
  | .cons v rest, h => by
    simp only [hasUnresolvedArr, Bool.or_eq_false_iff] at h
    simp [singlePassArr, single_pass_id cfg v h.1, single_pass_arr_id cfg rest h.2]

theorem single_pass_obj_id (cfg : JValue) :
    ∀ fs : JObj, hasUnresolvedObj fs = false → singlePassObj cfg fs = fs
  | .nil, _ => rfl
  | .cons k v rest, h => by
    simp only [hasUnresolvedObj, Bool.or_eq_false_iff] at h
    simp [singlePassObj, single_pass_id cfg v h.1, single_pass_obj_id cfg rest h.2]

end

mutual

theorem shape_expand (home : String) :
    ∀ v : JValue, shape_of (expand_tilde_paths home v) = shape_of v
  | .null => rfl
  | .bool _ => rfl
  | .num _ => rfl
  | .str s => by
    by_cases hs : startsWithTilde s = true <;>
      simp [expand_tilde_paths, hs, shape_of]
  | .arr xs => by simp [expand_tilde_paths, shape_of, shape_expand_arr home xs]
  | .obj fs => by simp [expand_tilde_paths, shape_of, shape_expand_obj home fs]

theorem shape_expand_arr (home : String) :
    ∀ xs : JArr, shapeOfArr (expandTildeArr home xs) = shapeOfArr xs
  | .nil => rfl
  | .cons v rest => by
    simp [expandTildeArr, shapeOfArr, shape_expand home v, shape_expand_arr home rest]

theorem shape_expand_obj (home : String) :
    ∀ fs : JObj, shapeOfObj (expandTildeObj home fs) = shapeOfObj fs
  | .nil => rfl
  | .cons k v rest => by
    simp [expandTildeObj, shapeOfObj, shape_expand home v, shape_expand_obj home rest]

end

mutual

theorem shape_single_pass (cfg : JValue) :
    ∀ v : JValue, shape_of (resolve_variables_single_pass cfg v) = shape_of v
  | .null => rfl
  | .bool _ => rfl
  | .num _ => rfl
  | .str _ => rfl
  | .arr xs => by
    simp [resolve_variables_single_pass, shape_of, shape_single_pass_arr cfg xs]
  | .obj fs => by
    simp [resolve_variables_single_pass, shape_of, shape_single_pass_obj cfg fs]

theorem shape_single_pass_arr (cfg : JValue) :
    ∀ xs : JArr, shapeOfArr (singlePassArr cfg xs) = shapeOfArr xs
  | .nil => rfl
  | .cons v rest => by
    simp [singlePassArr, shapeOfArr, shape_single_pass cfg v, shape_single_pass_arr cfg rest]

theorem shape_single_pass_obj (cfg : JValue) :
    ∀ fs : JObj, shapeOfObj (singlePassObj cfg fs) = shapeOfObj fs
  | .nil => rfl
  | .cons k v rest => by
    simp [singlePassObj, shapeOfObj, shape_single_pass cfg v, shape_single_pass_obj cfg rest]

end

theorem loop_shape (cfg : JValue) :
    ∀ (fuel : Nat) (obj : JValue),
      shape_of (resolve_refs_loop cfg fuel obj).1 = shape_of obj := by
  intro fuel
  induction fuel with
  | zero => intro obj; rfl
  | succ a ih =>
    intro obj
    simp only [resolve_refs_loop]
    by_cases h : has_unresolved_variables (resolve_variables_single_pass cfg obj) = true
    · rw [if_pos h, ih, shape_single_pass]
    · rw [if_neg h]
      exact shape_single_pass cfg obj

theorem loop_warn (cfg : JValue) :
    ∀ (a : Nat) (obj : JValue),
      (resolve_refs_loop cfg (a + 1) obj).2 =
        has_unresolved_variables (resolve_refs_loop cfg (a + 1) obj).1 := by
  intro a
  induction a with
  | zero =>
    intro obj
    simp only [resolve_refs_loop]
    by_cases h : has_unresolved_variables (resolve_variables_single_pass cfg obj) = true
    · rw [if_pos h]
      simp [resolve_refs_loop, h]
    · rw [if_neg h]
      simp only [Bool.not_eq_true] at h
      simp [h]
  | succ n ih =>
    intro obj
    simp only [resolve_refs_loop]
    by_cases h : has_unresolved_variables (resolve_variables_single_pass cfg obj) = true
    · rw [if_pos h]
      exact ih _
    · rw [if_neg h]
      simp only [Bool.not_eq_true] at h
      simp [h]

theorem substGo_at_token (cfg : JValue) (p : Char) (ps post : List Char)
    (hbrace : '}' ∉ p :: ps) :
    substGo cfg ('$' :: '{' :: ((p :: ps) ++ '}' :: post)).length
        ('$' :: '{' :: ((p :: ps) ++ '}' :: post))
      = replace_var cfg (p :: ps) ++ substGo cfg post.length post := by
  have ht := takeToBrace_append (p :: ps) post hbrace
  simp only [List.length_cons, substGo, ht, and_self, if_true]
  congr 1
  apply substGo_fuel
  · simp [List.length_append]
    omega
  · exact le_rfl

theorem resolve_string_split (cfg : JValue) (pre path post : List Char)
    (hpre : hasDollarBrace pre = false) (hpath : path ≠ []) (hbrace : '}' ∉ path) :
    resolve_string_variables cfg (String.mk (pre ++ '$' :: '{' :: (path ++ '}' :: post)))
      = String.mk (pre ++ (replace_var cfg path ++ substGo cfg post.length post)) := by
  cases path with
  | nil => exact absurd rfl hpath
  | cons p ps =>
    have hs : (('$' :: '{' :: ((p :: ps) ++ '}' :: post)) : List Char).head? ≠ some '{' := by
      simp
    show String.mk
        (substGo cfg (pre ++ '$' :: '{' :: ((p :: ps) ++ '}' :: post)).length
          (pre ++ '$' :: '{' :: ((p :: ps) ++ '}' :: post)))
      = _
    rw [substGo_append cfg _ hs pre hpre, substGo_at_token cfg p ps post hbrace]

/-! ## Claims about the configuration resolver -/

/-- C2: the claim says a `$\x7bp\x7d` reference to a tilde path receives the
home-expanded (absolute) form.  In the code, reference substitution looks
values up in the *original* `self.config` (config_resolver.py line 176),
which tilde expansion never touched, so the reference receives the raw
tilde form: resolving `\x7b"a": "~/x", "b": "$\x7ba\x7d/y"\x7d` with home
`/hu` yields `b = "~/x/y"`, not the `"/hu/x/y"` promised by the claim and
by the module docstring's own example (lines 17-24). -/
theorem c2_reference_receives_raw_tilde_value :
    resolve_variables "/hu" c2_config
      = (.obj (.cons "a" (.str "/hu/x") (.cons "b" (.str "~/x/y") .nil)), false)
    ∧ (JValue.str "~/x/y") ≠ (JValue.str "/hu/x/y") := by
  refine ⟨rfl, ?_⟩
  intro h
  injection h with h'
  exact absurd h' (by decide)

/-- C5: one warning bit characterization — iterated resolution (fixed
ceiling 10) returns a tree whose warning flag is set exactly when
unresolved `$\x7b` tokens remain — together with the circular input
`\x7b"a": "$\x7bb\x7d", "b": "$\x7ba\x7d"\x7d`, which terminates after the
10 passes, returns the tree with its tokens still unresolved, and signals
the warning. -/
theorem c5_iteration_ceiling_and_warning :
    (∀ (cfg obj : JValue),
        (resolve_variable_references cfg obj).2
          = has_unresolved_variables (resolve_variable_references cfg obj).1)
    ∧ resolve_variables "/hu" circ_config = (circ_config, true) := by
  constructor
  · intro cfg obj
    exact loop_warn cfg 9 obj
  · rfl

/-- C6: a reference `$\x7bpath\x7d` whose dot-path walk fails (missing
segment or non-mapping) is left verbatim in the output and raises nothing,
while the rest of the string continues to be substituted; a reference whose
path resolves (to a non-`None` value) is replaced by the string form of the
value. -/
theorem c6_unresolvable_reference_left_verbatim :
    (∀ (cfg : JValue) (pre path post : List Char),
        hasDollarBrace pre = false → path ≠ [] → '}' ∉ path →
        get_nested_value cfg ((splitDots path).map String.mk) = none →
        resolve_string_variables cfg
            (String.mk (pre ++ '$' :: '{' :: (path ++ '}' :: post)))
          = String.mk (pre ++ '$' :: '{' :: (path ++ '}' :: substGo cfg post.length post)))
    ∧ (∀ (cfg : JValue) (pre path post : List Char) (v : JValue),
        hasDollarBrace pre = false → path ≠ [] → '}' ∉ path →
        get_nested_value cfg ((splitDots path).map String.mk) = some v → v ≠ .null →
        resolve_string_variables cfg
            (String.mk (pre ++ '$' :: '{' :: (path ++ '}' :: post)))
          = String.mk (pre ++ ((pyStr v).data ++ substGo cfg post.length post))) := by
  constructor
  · intro cfg pre path post hpre hpath hbrace hmiss
    rw [resolve_string_split cfg pre path post hpre hpath hbrace]
    have hrv : replace_var cfg path = '$' :: '{' :: (path ++ ['}']) := by
      unfold replace_var
      rw [hmiss]
    rw [hrv]
    congr 1
    simp
  · intro cfg pre path post v hpre hpath hbrace hv hvnull
    rw [resolve_string_split cfg pre path post hpre hpath hbrace]
    have hrv : replace_var cfg path = (pyStr v).data := by
      unfold replace_var
      rw [hv]
      cases v with
      | null => exact absurd rfl hvnull
      | bool b => rfl
      | num n => rfl
      | str s => rfl
      | arr xs => rfl
      | obj fs => rfl
    rw [hrv]

/-- Witness for C6 at a concrete input: in `"x$\x7bmiss\x7d y=$\x7ba\x7d."`
against the configuration `\x7b"a": "v"\x7d`, the dead reference stays
verbatim and the live reference is still substituted, giving
`"x$\x7bmiss\x7d y=v."`. -/
theorem c6_witness :
    resolve_string_variables c6_config
        (String.mk ("x".data ++ '$' :: '{' :: ("miss".data ++ '}' :: " y=$\x7ba\x7d.".data)))
      = String.mk ("x".data ++ '$' :: '{' ::
          ("miss".data ++ '}' ::
            substGo c6_config " y=$\x7ba\x7d.".data.length " y=$\x7ba\x7d.".data))
    ∧ String.mk ("x".data ++ '$' :: '{' ::
          ("miss".data ++ '}' ::
            substGo c6_config " y=$\x7ba\x7d.".data.length " y=$\x7ba\x7d.".data))
        = "x$\x7bmiss\x7d y=v." := by
  constructor
  · exact c6_unresolvable_reference_left_verbatim.1 c6_config "x".data "miss".data
      " y=$\x7ba\x7d.".data (by decide) (by decide) (by decide) rfl
  · rfl

/-- C9: resolving a tree in which no string scalar starts with `~` and no
string scalar contains `$\x7b` returns the tree unchanged (and without the
warning): resolution is a no-op once stable. -/
theorem c9_resolve_noop_on_stable_tree (home : String) (cfg : JValue)
    (h1 : hasTildeVal cfg = false) (h2 : has_unresolved_variables cfg = false) :
    resolve_variables home cfg = (cfg, false) := by
  unfold resolve_variables resolve_variable_references
  rw [expand_tilde_id home cfg h1]
  show resolve_refs_loop cfg (9 + 1) cfg = (cfg, false)
  simp [resolve_refs_loop, single_pass_id cfg cfg h2, h2]

/-- Witness for C9: a concrete stable tree is returned unchanged. -/
theorem c9_witness :
    hasTildeVal c9_config = false ∧ has_unresolved_variables c9_config = false
      ∧ resolve_variables "/hu" c9_config = (c9_config, false) :=
  ⟨rfl, rfl, c9_resolve_noop_on_stable_tree "/hu" c9_config rfl rfl⟩

/-- C10: resolution preserves the shape of the tree — same mapping keys in
order at every mapping node, same sequence lengths and positions, equal
non-string scalar leaves; only string scalars can change (their skeleton
`shape_of` collapses every string to `""` and keeps everything else). -/
theorem c10_resolution_preserves_shape (home : String) (cfg : JValue) :
    shape_of ((resolve_variables home cfg).1) = shape_of cfg := by
  unfold resolve_variables resolve_variable_references
  rw [loop_shape cfg 10 (expand_tilde_paths home cfg), shape_expand]

/-! ## Claims about the progress tracker -/

/-- C1: the claim says loading never raises and that a malformed or
wrong-shaped file yields a fresh all-pending snapshot.  A missing file does
initialize fresh (second and third conjuncts), but a file that exists and
fails to parse raises: `json.load`'s `JSONDecodeError` reaches the clause
`except (json.JSONError, KeyError, TypeError)` on line 136, and evaluating
that tuple itself raises `AttributeError` because the stdlib `json` module
has no attribute `JSONError` (the real name is `JSONDecodeError`), so
`_load_progress` propagates an exception instead of recovering. -/
theorem c1_malformed_file_load_raises :
    load_progress "cks" ProgressFile.invalidJson = Except.error PyExc.attributeError
    ∧ load_progress "cks" ProgressFile.missing = Except.ok (initialize_progress "cks")
    ∧ ∀ e ∈ initialize_progress "cks", e.2.status = "pending" ∧ e.2.checksum = some "cks" := by
  refine ⟨rfl, rfl, ?_⟩
  decide

/-- Counterexample to C3: a successful load from an existing persisted file
whose `stages` mapping holds one well-formed entry named `bogus` produces
an in-memory mapping whose key set is `[bogus]`, not the set of
StageDefinition names — the loader performs no reconciliation. -/
theorem c3_load_does_not_reconcile_keys :
    (load_progress "cks" c3_file).map (fun pd => pd.map Prod.fst) = Except.ok ["bogus"]
    ∧ (["bogus"] : List String) ≠ stages := by
  exact ⟨rfl, by decide⟩

theorem load_stage_entries_keys :
    ∀ (so : JObj) (l : ProgressData), load_stage_entries so = some l →
      l.map Prod.fst = objKeys so
  | .nil, l, h => by
    simp only [load_stage_entries, Option.some.injEq] at h
    rw [← h]
    rfl
  | .cons n v rest, l, h => by
    cases v with
    | obj kw =>
      simp only [load_stage_entries] at h
      cases hs : stage_status_of_kwargs kw with
      | none => rw [hs] at h; simp at h
      | some st =>
        rw [hs] at h
        cases hr : load_stage_entries rest with
        | none => rw [hr] at h; simp at h
        | some l2 =>
          rw [hr] at h
          simp at h
          subst h
          simp only [List.map_cons, objKeys]
          rw [load_stage_entries_keys rest l2 hr]
    | null => simp [load_stage_entries] at h
    | bool b => simp [load_stage_entries] at h
    | num n2 => simp [load_stage_entries] at h
    | str s => simp [load_stage_entries] at h
    | arr xs => simp [load_stage_entries] at h

/-- C3 (amended): after initialization the key set of the stage-status
mapping is exactly the set of StageDefinition names; after a successful
load from an existing file the key set is exactly the key set of the
file's `stages` mapping — extra or missing entries are preserved, not
reconciled. -/
theorem c3_keys_after_init_and_load :
    (∀ cks : String, (initialize_progress cks).map Prod.fst = stages)
    ∧ (∀ (cks : String) (entries : JObj) (so : JObj) (pd : ProgressData),
        objFind entries "stages" = some (.obj so) →
        load_progress cks (.mapping entries) = .ok pd →
        pd.map Prod.fst = objKeys so) := by
  constructor
  · intro cks; rfl
  · intro cks entries so pd h1 h2
    simp only [load_progress, h1] at h2
    cases hls : load_stage_entries so with
    | none => rw [hls] at h2; simp at h2
    | some l =>
      rw [hls] at h2
      simp only [Except.ok.injEq] at h2
      rw [← h2]
      exact load_stage_entries_keys so l hls

/-- Witness for C3's amended statement: the initializer's keys are the
declared names, and loading `c3_file` yields exactly the file's key set. -/
theorem c3_keys_witness :
    ((initialize_progress "c").map Prod.fst = stages)
    ∧ (([("bogus",
          { name := "bogus", status := "pending", stage_id := "XXX-999",
            checksum := none, start_time := none, end_time := none,
            error_message := none, details := .nil })] : ProgressData).map Prod.fst
        = objKeys (.cons "bogus"
            (.obj (.cons "name" (.str "bogus")
              (.cons "status" (.str "pending")
                (.cons "stage_id" (.str "XXX-999") .nil)))) .nil)) :=
  ⟨c3_keys_after_init_and_load.1 "c",
   c3_keys_after_init_and_load.2 "c"
     (.cons "stages"
       (.obj (.cons "bogus"
         (.obj (.cons "name" (.str "bogus")
           (.cons "status" (.str "pending")
             (.cons "stage_id" (.str "XXX-999") .nil)))) .nil)) .nil)
     (.cons "bogus"
       (.obj (.cons "name" (.str "bogus")
         (.cons "status" (.str "pending")
           (.cons "stage_id" (.str "XXX-999") .nil)))) .nil)
     ([("bogus",
       { name := "bogus", status := "pending", stage_id := "XXX-999",
         checksum := none, start_time := none, end_time := none,
         error_message := none, details := .nil })] : ProgressData)
     rfl rfl⟩

theorem stage_kwargs_roundtrip (s : StageStatus) :
    stage_status_of_kwargs (stage_status_to_json s) = some s := by
  obtain ⟨n, st, sid, cks, t0, t1, em, dts⟩ := s
  cases cks <;> cases t0 <;> cases t1 <;> cases em <;> rfl

theorem load_save_entries (pd : ProgressData) :
    load_stage_entries (stages_to_json pd) = some pd := by
  induction pd with
  | nil => rfl
  | cons e rest ih =>
    obtain ⟨nm, st⟩ := e
    simp [stages_to_json, load_stage_entries, stage_kwargs_roundtrip st, ih]

/-- C8: persisting an in-memory progress state and loading it back from the
same file reproduces an identical stage-status mapping: same names, and
`StageStatus` records with equal status, stage id, checksum, start/end
times, error message and details. -/
theorem c8_save_load_roundtrip (cks cks2 : String) (now : Int) (sess : String)
    (pd : ProgressData) :
    load_progress cks (save_progress cks2 now sess pd) = Except.ok pd := by
  simp [save_progress, load_progress, objFind, load_save_entries pd]

theorem alookup_aupdate_self (pd : ProgressData) (k : String) (f : StageStatus → StageStatus) :
    alookup (aupdate pd k f) k = (alookup pd k).map f := by
  induction pd with
  | nil => rfl
  | cons e rest ih =>
    obtain ⟨k0, v0⟩ := e
    simp only [aupdate]
    by_cases h : k0 = k
    · rw [if_pos h]
      simp only [alookup]
      rw [if_pos h, if_pos h]
      rfl
    · rw [if_neg h]
      simp only [alookup]
      rw [if_neg h, if_neg h]
      exact ih

theorem alookup_aupdate_ne (pd : ProgressData) (k m : String) (f : StageStatus → StageStatus)
    (h : m ≠ k) :
    alookup (aupdate pd k f) m = alookup pd m := by
  induction pd with
  | nil => rfl
  | cons e rest ih =>
    obtain ⟨k0, v0⟩ := e
    simp only [aupdate]
    by_cases hk : k0 = k
    · have hm : ¬ k0 = m := fun hh => h (hh ▸ hk)
      rw [if_pos hk]
      simp only [alookup]
      rw [if_neg hm, if_neg hm]
      exact ih
    · rw [if_neg hk]
      simp only [alookup]
      by_cases hm : k0 = m
      · rw [if_pos hm, if_pos hm]
      · rw [if_neg hm, if_neg hm]
        exact ih

theorem isSome_aupdate (pd : ProgressData) (k m : String) (f : StageStatus → StageStatus) :
    (alookup (aupdate pd k f) m).isSome = (alookup pd m).isSome := by
  by_cases h : m = k
  · subst h
    rw [alookup_aupdate_self]
    cases alookup pd m <;> rfl
  · rw [alookup_aupdate_ne pd k m f h]

theorem resume_scan_eq (pd : ProgressData) :
    ∀ l : List String, (∀ n ∈ l, (alookup pd n).isSome) →
      resume_scan pd l
        = .ok (l.find? fun n => !((alookup pd n).map StageStatus.status == some "completed")) := by
  intro l
  induction l with
  | nil => intro _; rfl
  | cons n rest ih =>
    intro h
    have hn : (alookup pd n).isSome := h n (List.mem_cons_self n rest)
    obtain ⟨st, hst⟩ := Option.isSome_iff_exists.mp hn
    simp only [resume_scan, hst]
    by_cases hc : st.status = "completed"
    · rw [if_neg (not_not_intro hc)]
      rw [ih (fun m hm => h m (List.mem_cons_of_mem n hm))]
      congr 1
      have hbe : (st.status == "completed") = true := beq_iff_eq.mpr hc
      simp [List.find?, hst, hbe]
    · rw [if_pos hc]
      have hbe : (st.status == "completed") = false := beq_eq_false_iff_ne.mpr hc
      simp [List.find?, hst, hbe]

theorem apply_details_keeps_other_fields (st : StageStatus) (dts : Option JObj) :
    (apply_details st dts).status = st.status
      ∧ (apply_details st dts).error_message = st.error_message := by
  cases dts with
  | none => exact ⟨rfl, rfl⟩
  | some d =>
    cases d with
    | nil => exact ⟨rfl, rfl⟩
    | cons k v rest => exact ⟨rfl, rfl⟩

theorem find?_first_of_prefix (p : String → Bool) :
    ∀ (l : List String) (name : String), name ∈ l →
      (∀ m ∈ l.takeWhile (fun s => !(s == name)), p m = false) → p name = true →
      l.find? p = some name := by
  intro l
  induction l with
  | nil => intro name h; simp at h
  | cons a rest ih =>
    intro name hmem hpre hp
    by_cases ha : a = name
    · subst ha
      simp [List.find?, hp]
    · have hpa : (!(a == name)) = true := by simp [ha]
      have htw : (a :: rest).takeWhile (fun s => !(s == name))
          = a :: rest.takeWhile (fun s => !(s == name)) := by
        simp [List.takeWhile_cons, hpa]
      have hfa : p a = false := by
        apply hpre a
        rw [htw]
        exact List.mem_cons_self a _
      have hmem' : name ∈ rest := by
        cases hmem with
        | head => exact absurd rfl ha
        | tail _ hh => exact hh
      simp only [List.find?, hfa]
      exact ih name hmem'
        (fun m hm => hpre m (by rw [htw]; exact List.mem_cons_of_mem a hm)) hp

/-- C4: under the invariant that every declared stage has an entry, the
resume-point computation returns exactly the first stage in declared order
whose status is not `completed` (`none` when all are completed; stated via
the spec-side `resume_point_spec`); and after a successful
`fail_stage name msg`, that stage's status is `failed` with the stored
error message, and — when every declared stage before it is `completed` —
the resume point is still that stage. -/
theorem c4_resume_point_and_fail :
    (∀ pd : ProgressData, (∀ n ∈ stages, (alookup pd n).isSome) →
        get_resume_point pd = .ok (resume_point_spec pd))
    ∧ (∀ (pd : ProgressData) (name msg : String) (now : Int) (dts : Option JObj),
        name ∈ stages →
        (∀ n ∈ stages, (alookup pd n).isSome) →
        (∀ m ∈ stages.takeWhile (fun s => !(s == name)),
            (alookup pd m).map StageStatus.status = some "completed") →
        (fail_stage now pd name msg dts).2 = true
        ∧ (∃ st2, alookup (fail_stage now pd name msg dts).1 name = some st2
            ∧ st2.status = "failed" ∧ st2.error_message = some msg)
        ∧ get_resume_point (fail_stage now pd name msg dts).1 = .ok (some name)) := by
  constructor
  · intro pd h
    exact resume_scan_eq pd stages h
  · intro pd name msg now dts hname hall hpre
    obtain ⟨st, hst⟩ := Option.isSome_iff_exists.mp (hall name hname)
    have hfs : fail_stage now pd name msg dts
        = (aupdate pd name (fun st2 =>
            apply_details { st2 with status := "failed", end_time := some now, error_message := some msg } dts), true) := by
      simp [fail_stage, hst]
    rw [hfs]
    set updFn := fun st2 : StageStatus =>
      apply_details { st2 with status := "failed", end_time := some now, error_message := some msg } dts
    have hself : alookup (aupdate pd name updFn) name = some (updFn st) := by
      rw [alookup_aupdate_self, hst]
      rfl
    have hstat : (updFn st).status = "failed" :=
      (apply_details_keeps_other_fields _ dts).1
    have herr : (updFn st).error_message = some msg :=
      (apply_details_keeps_other_fields _ dts).2
    refine ⟨rfl, ⟨updFn st, hself, hstat, herr⟩, ?_⟩
    have hall' : ∀ n ∈ stages, (alookup (aupdate pd name updFn) n).isSome := by
      intro n hn2
      rw [isSome_aupdate]
      exact hall n hn2
    show resume_scan (aupdate pd name updFn) stages = _
    rw [resume_scan_eq (aupdate pd name updFn) stages hall']
    congr 1
    apply find?_first_of_prefix _ stages name hname
    · intro m hm
      have hbm := List.mem_takeWhile_imp hm
      have hmne : m ≠ name := by
        intro he
        rw [he] at hbm
        simp at hbm
      show (!((alookup (aupdate pd name updFn) m).map StageStatus.status
          == some "completed")) = false
      rw [alookup_aupdate_ne pd name m updFn hmne, hpre m hm]
      simp
    · show (!((alookup (aupdate pd name updFn) name).map StageStatus.status
          == some "completed")) = true
      rw [hself]
      simp [hstat]

/-- Witness for C4: failing the first declared stage of a fresh store
(every earlier stage vacuously completed) marks it `failed` with message
`boom`, and the resume point is still that stage. -/
theorem c4_witness :
    (fail_stage 5 (initialize_progress "c") "validation" "boom" none).2 = true
    ∧ (∃ st2,
        alookup (fail_stage 5 (initialize_progress "c") "validation" "boom" none).1
            "validation" = some st2
          ∧ st2.status = "failed" ∧ st2.error_message = some "boom")
    ∧ get_resume_point (fail_stage 5 (initialize_progress "c") "validation" "boom" none).1
        = .ok (some "validation") :=
  c4_resume_point_and_fail.2 (initialize_progress "c") "validation" "boom" 5 none
    (by decide) (by decide) (by decide)

theorem memb_iff : ∀ (l : List String) (s : String), memb l s = true ↔ s ∈ l
  | [], s => by simp [memb]
  | a :: rest, s => by
    simp only [memb, Bool.or_eq_true, decide_eq_true_eq, memb_iff rest s, List.mem_cons]
    constructor
    · rintro (h | h)
      · exact Or.inl h.symm
      · exact Or.inr h
    · rintro (h | h)
      · exact Or.inl h.symm
      · exact Or.inr h

theorem clear_stage_idem (st : StageStatus) :
    clear_stage (clear_stage st) = clear_stage st := rfl

theorem apply_reset_nil : ∀ pd : ProgressData, apply_reset pd [] = pd := by
  intro pd
  induction pd with
  | nil => rfl
  | cons e rest ih =>
    obtain ⟨k, v⟩ := e
    simp [apply_reset, memb, ih]

theorem apply_reset_update :
    ∀ (pd : ProgressData) (s : String) (region : List String),
      apply_reset (aupdate pd s clear_stage) region = apply_reset pd (s :: region) := by
  intro pd s region
  induction pd with
  | nil => rfl
  | cons e rest ih =>
    obtain ⟨k, v⟩ := e
    simp only [aupdate]
    by_cases hk : k = s
    · rw [if_pos hk]
      simp only [apply_reset, memb]
      have hsk : decide (s = k) = true := decide_eq_true (hk ▸ rfl)
      simp only [hsk, Bool.true_or, if_true]
      by_cases hr : memb region k = true
      · rw [if_pos hr, clear_stage_idem, ih]
      · rw [if_neg hr, ih]
    · rw [if_neg hk]
      simp only [apply_reset, memb]
      have hsk : decide (s = k) = false := decide_eq_false (fun hh => hk hh.symm)
      simp only [hsk, Bool.false_or]
      rw [ih]

theorem reset_scan_found (name : String) :
    ∀ (l : List String) (pd : ProgressData), (∀ s ∈ l, (alookup pd s).isSome) →
      reset_scan name pd true l = .ok (apply_reset pd l) := by
  intro l
  induction l with
  | nil =>
    intro pd _
    simp [reset_scan, apply_reset_nil]
  | cons s rest ih =>
    intro pd h
    obtain ⟨st, hst⟩ := Option.isSome_iff_exists.mp (h s (List.mem_cons_self s rest))
    simp only [reset_scan, Bool.true_or, if_true, hst]
    rw [ih (aupdate pd s clear_stage)
      (fun t ht => by rw [isSome_aupdate]; exact h t (List.mem_cons_of_mem s ht))]
    rw [apply_reset_update]

theorem reset_scan_unfound (name : String) :
    ∀ (l : List String) (pd : ProgressData), (∀ s ∈ l, (alookup pd s).isSome) →
      reset_scan name pd false l
        = .ok (apply_reset pd (l.dropWhile (fun t => !(t == name)))) := by
  intro l
  induction l with
  | nil =>
    intro pd _
    simp [reset_scan, apply_reset_nil]
  | cons s rest ih =>
    intro pd h
    by_cases hs : s = name
    · subst hs
      obtain ⟨st, hst⟩ := Option.isSome_iff_exists.mp (h s (List.mem_cons_self s rest))
      simp only [reset_scan, Bool.false_or, beq_self_eq_true, if_true, hst]
      rw [reset_scan_found s rest (aupdate pd s clear_stage)
        (fun t ht => by rw [isSome_aupdate]; exact h t (List.mem_cons_of_mem s ht))]
      rw [apply_reset_update]
      congr 1
      simp [List.dropWhile_cons]
    · have hbs : (s == name) = false := beq_eq_false_iff_ne.mpr hs
      simp only [reset_scan, Bool.false_or, hbs, if_false]
      rw [ih pd (fun t ht => h t (List.mem_cons_of_mem s ht))]
      simp [List.dropWhile_cons, hbs]

theorem alookup_apply_reset_mem :
    ∀ (pd : ProgressData) (region : List String) (s : String),
      memb region s = true →
      alookup (apply_reset pd region) s = (alookup pd s).map clear_stage := by
  intro pd region s h
  induction pd with
  | nil => rfl
  | cons e rest ih =>
    obtain ⟨k, v⟩ := e
    simp only [apply_reset]
    by_cases hk : k = s
    · rw [hk, if_pos h]
      simp [alookup]
    · by_cases hr : memb region k = true
      · rw [if_pos hr]
        simp only [alookup]
        rw [if_neg hk, if_neg hk]
        exact ih
      · rw [if_neg hr]
        simp only [alookup]
        rw [if_neg hk, if_neg hk]
        exact ih

theorem alookup_apply_reset_not_mem :
    ∀ (pd : ProgressData) (region : List String) (s : String),
      memb region s = false →
      alookup (apply_reset pd region) s = alookup pd s := by
  intro pd region s h
  induction pd with
  | nil => rfl
  | cons e rest ih =>
    obtain ⟨k, v⟩ := e
    simp only [apply_reset]
    by_cases hk : k = s
    · rw [hk, if_neg (by rw [h]; exact Bool.false_ne_true)]
      simp [alookup]
    · by_cases hr : memb region k = true
      · rw [if_pos hr]
        simp only [alookup]
        rw [if_neg hk, if_neg hk]
        exact ih
      · rw [if_neg hr]
        simp only [alookup]
        rw [if_neg hk, if_neg hk]
        exact ih

/-- C7: for a stage name in the declared order (with every declared stage
present in the store), `reset_from_stage` succeeds; every stage at or after
the name in declared order is reset through `clear_stage` (status
`pending`, `start_time`/`end_time`/`error_message` cleared to `None`,
`details` cleared to the empty dict), every stage strictly before it keeps
its entry unchanged, and the snapshot persisted by the single save at the
end serializes exactly the post-reset state. -/
theorem c7_reset_from_stage_frame (pd : ProgressData) (name : String)
    (_h1 : name ∈ stages) (h2 : ∀ s ∈ stages, (alookup pd s).isSome) :
    ∃ pd2, reset_from_stage pd name = .ok pd2
      ∧ (∀ s ∈ stages.dropWhile (fun t => !(t == name)),
          alookup pd2 s = (alookup pd s).map clear_stage)
      ∧ (∀ s ∈ stages.takeWhile (fun t => !(t == name)),
          alookup pd2 s = alookup pd s)
      ∧ (∀ (cks : String) (now : Int) (sess : String),
          reset_from_stage_saved cks now sess pd name
            = .ok (pd2, save_progress cks now sess pd2)) := by
  refine ⟨apply_reset pd (stages.dropWhile (fun t => !(t == name))), ?_, ?_, ?_, ?_⟩
  · exact reset_scan_unfound name stages pd h2
  · intro s hs
    exact alookup_apply_reset_mem pd _ s ((memb_iff _ s).mpr hs)
  · intro s hs
    have hnotin : s ∉ stages.dropWhile (fun t => !(t == name)) := by
      intro hmem
      have hnd : stages.Nodup := by decide
      have hsplit : stages.takeWhile (fun t => !(t == name))
            ++ stages.dropWhile (fun t => !(t == name)) = stages :=
        List.takeWhile_append_dropWhile (fun t => !(t == name)) stages
      rw [← hsplit] at hnd
      exact (List.nodup_append.mp hnd).2.2 hs hmem
    have hmf : memb (stages.dropWhile (fun t => !(t == name))) s = false := by
      cases hb : memb (stages.dropWhile (fun t => !(t == name))) s
      · rfl
      · exact absurd ((memb_iff _ s).mp hb) hnotin
    exact alookup_apply_reset_not_mem pd _ s hmf
  · intro cks now sess
    simp only [reset_from_stage_saved, reset_from_stage,
      reset_scan_unfound name stages pd h2, Except.map]

/-- Witness for C7 on a fresh store, resetting from `maven_install`. -/
theorem c7_witness :
    ∃ pd2, reset_from_stage (initialize_progress "c") "maven_install" = .ok pd2
      ∧ (∀ s ∈ stages.dropWhile (fun t => !(t == "maven_install")),
          alookup pd2 s = (alookup (initialize_progress "c") s).map clear_stage)
      ∧ (∀ s ∈ stages.takeWhile (fun t => !(t == "maven_install")),
          alookup pd2 s = alookup (initialize_progress "c") s)
      ∧ (∀ (cks : String) (now : Int) (sess : String),
          reset_from_stage_saved cks now sess (initialize_progress "c") "maven_install"
            = .ok (pd2, save_progress cks now sess pd2)) :=
  c7_reset_from_stage_frame (initialize_progress "c") "maven_install" (by decide) (by decide)
